import Mathlib

/-!
Verification of the OFI cross-impact pipeline (scripts/ofi_calculation.py,
scripts/returns.py, scripts/pca_integration.py, scripts/cross_impact.py).

The pandas DataFrames are embedded shallowly: a table is a Lean list of typed
rows (plus, for the schema-validation claims, an explicit list of column
names).  Instrument identifiers (pandas arbitrary labels) are embedded as
naturals, prices and sizes (floats) as rationals, timestamps as naturals.
A float column produced by `shift(1)` holds a NaN in its first slot; such
columns are embedded as `Option` values with `none` playing NaN, and the
numpy comparison / subtraction semantics on NaN (`NaN > x`, `NaN == x` are
false, `x - NaN` is NaN) are embedded explicitly below.
-/

/-- Numpy comparison `x > y` on two possibly-NaN scalars: any comparison with
a NaN operand is false. -/
def optGtB (x y : Option ℚ) : Bool :=
  match x, y with
  | some a, some b => decide (b < a)
  | _, _ => false

/-- Numpy comparison `x == y` on two possibly-NaN scalars: false when either
operand is NaN (in particular `NaN == NaN` is false). -/
def optEqB (x y : Option ℚ) : Bool :=
  match x, y with
  | some a, some b => decide (a = b)
  | _, _ => false

/-- Numpy subtraction on possibly-NaN scalars: NaN propagates. -/
def optSub (x y : Option ℚ) : Option ℚ :=
  match x, y with
  | some a, some b => some (a - b)
  | _, _ => none

/-- One book-snapshot row (ofi_calculation.py input): instrument identifier,
event timestamp, and the per-level bid/ask price and size ladders (entry `l`
of each list is the `_{l:02d}` column). -/
structure BookRow where
  symbol : ℕ
  ts_event : ℕ
  bid_px : List ℚ
  ask_px : List ℚ
  bid_sz : List ℚ
  ask_sz : List ℚ
deriving DecidableEq, Repr

/-- One output row of `calculate_order_flows`: the input row plus the
`of_{level}_b` / `of_{level}_a` columns (entry `l` of each list).  The cells
are `Option ℚ` because the numpy computation can in principle hold NaN. -/
structure FlowRow where
  base : BookRow
  of_b : List (Option ℚ)
  of_a : List (Option ℚ)
deriving DecidableEq, Repr

/-- The bid-flow `np.where` cascade of ofi_calculation.py lines 53-59, with
the shifted (possibly NaN) predecessor columns as `Option` arguments. -/
def of_b_cell (px sz : ℚ) (px_prev sz_prev : Option ℚ) : Option ℚ :=
  if optGtB (some px) px_prev then some sz
  else if optEqB (some px) px_prev then optSub (some sz) sz_prev
  else some (-sz)

/-- The ask-flow `np.where` cascade of ofi_calculation.py lines 62-68. -/
def of_a_cell (px sz : ℚ) (px_prev sz_prev : Option ℚ) : Option ℚ :=
  if optGtB (some px) px_prev then some (-sz)
  else if optEqB (some px) px_prev then optSub (some sz) sz_prev
  else some sz

/-- Builds one output row from a row and its shifted predecessor (the
`_prev` columns of ofi_calculation.py lines 47-50; `none` = the NaN that
`shift(1)` puts in the first row of a group). -/
def mkFlowRow (levels : ℕ) (r : BookRow) (prev : Option BookRow) : FlowRow :=
  { base := r
    of_b := (List.range levels).map fun l =>
      of_b_cell (r.bid_px.getD l 0) (r.bid_sz.getD l 0)
        (prev.map fun p => p.bid_px.getD l 0)
        (prev.map fun p => p.bid_sz.getD l 0)
    of_a := (List.range levels).map fun l =>
      of_a_cell (r.ask_px.getD l 0) (r.ask_sz.getD l 0)
        (prev.map fun p => p.ask_px.getD l 0)
        (prev.map fun p => p.ask_sz.getD l 0) }

/-- Per-group flow computation: the carried `prev` argument is exactly the
`shift(1)` predecessor of each row of the (already time-sorted) group. -/
def processGroup (levels : ℕ) (prev : Option BookRow) : List BookRow → List FlowRow
  | [] => []
  | r :: rs => mkFlowRow levels r prev :: processGroup levels (some r) rs

/-- The ascending time sort `group.sort_values(by="ts_event")` (embedded as a
stable structural sort; pandas leaves tie order unspecified). -/
def sortByTs (g : List BookRow) : List BookRow :=
  List.insertionSort (fun a b => a.ts_event ≤ b.ts_event) g

/-- The sorted distinct instrument keys produced by `groupby("symbol")`
(pandas emits groups in ascending key order). -/
def symbolsOf (rows : List BookRow) : List ℕ :=
  List.insertionSort (fun a b => a ≤ b) ((rows.map (fun r => r.symbol)).dedup)

/-- Shallow embedding of `calculate_order_flows` (ofi_calculation.py lines
31-89), on an input whose required columns are present: group by instrument
in ascending key order, sort each group by event time, compute the per-level
flow columns against the `shift(1)` predecessor, and concatenate the groups.
No row is dropped and the temporary `_prev` columns do not appear in the
output row type. -/
def calculate_order_flows (levels : ℕ) (rows : List BookRow) : List FlowRow :=
  (symbolsOf rows).flatMap fun s =>
    processGroup levels none (sortByTs (rows.filter fun r => r.symbol == s))

/-- Spec formula (§4.1) for the bid flow of a row with a predecessor, written
from the spec's words for comparison with the code's `of_b_cell`. -/
def specBidFlow (cur prev : BookRow) (l : ℕ) : ℚ :=
  if prev.bid_px.getD l 0 < cur.bid_px.getD l 0 then cur.bid_sz.getD l 0
  else if cur.bid_px.getD l 0 = prev.bid_px.getD l 0 then
    cur.bid_sz.getD l 0 - prev.bid_sz.getD l 0
  else -(cur.bid_sz.getD l 0)

/-- Spec formula (§4.1) for the ask flow of a row with a predecessor, written
from the spec's words for comparison with the code's `of_a_cell`. -/
def specAskFlow (cur prev : BookRow) (l : ℕ) : ℚ :=
  if prev.ask_px.getD l 0 < cur.ask_px.getD l 0 then -(cur.ask_sz.getD l 0)
  else if cur.ask_px.getD l 0 = prev.ask_px.getD l 0 then
    cur.ask_sz.getD l 0 - prev.ask_sz.getD l 0
  else cur.ask_sz.getD l 0

lemma processGroup_length (levels : ℕ) (prev : Option BookRow) (g : List BookRow) :
    (processGroup levels prev g).length = g.length := by
  induction g generalizing prev with
  | nil => rfl
  | cons r rs ih => simp [processGroup, ih]

lemma processGroup_getElem? (levels : ℕ) (prev : Option BookRow) (g : List BookRow)
    (i : ℕ) (hi : i < g.length) :
    (processGroup levels prev g)[i]? =
      some (mkFlowRow levels (g.get ⟨i, hi⟩) (if i = 0 then prev else g[i-1]?)) := by
  induction g generalizing prev i with
  | nil => simp at hi
  | cons r rs ih =>
    cases i with
    | zero => simp [processGroup]
    | succ j =>
      simp only [processGroup, List.getElem?_cons_succ]
      rw [ih (some r) j (by simpa using hi)]
      cases j with
      | zero => simp
      | succ k => simp

lemma processGroup_symbol (levels : ℕ) (prev : Option BookRow) (g : List BookRow)
    (s : ℕ) (hg : ∀ r ∈ g, r.symbol = s) :
    ∀ fr ∈ processGroup levels prev g, fr.base.symbol = s := by
  induction g generalizing prev with
  | nil => simp [processGroup]
  | cons r rs ih =>
    intro fr hfr
    simp only [processGroup, List.mem_cons] at hfr
    rcases hfr with h | h
    · subst h; exact hg r (by simp)
    · exact ih (some r) (fun r' hr' => hg r' (by simp [hr'])) fr h

lemma symbolsOf_nodup (rows : List BookRow) : (symbolsOf rows).Nodup := by
  unfold symbolsOf
  exact (List.perm_insertionSort _ _).symm.nodup (List.nodup_dedup _)

lemma mem_symbolsOf {rows : List BookRow} {s : ℕ} :
    s ∈ symbolsOf rows ↔ s ∈ rows.map (fun r => r.symbol) := by
  unfold symbolsOf
  rw [(List.perm_insertionSort _ _).mem_iff, List.mem_dedup]

/-- Filtering the concatenation of per-key blocks by one key recovers that
key's block, provided the key list has no duplicates and every element of a
block carries its block's key. -/
lemma flatMap_filter_single {α β : Type} [DecidableEq α] (key : β → α)
    (f : α → List β) (l : List α) (s : α) (hnd : l.Nodup) (hs : s ∈ l)
    (hf : ∀ a ∈ l, ∀ b ∈ f a, key b = a) :
    (l.flatMap f).filter (fun b => key b == s) = f s := by
  induction l with
  | nil => simp at hs
  | cons a as ih =>
    rw [List.nodup_cons] at hnd
    simp only [List.flatMap_cons, List.filter_append]
    by_cases ha : a = s
    · subst ha
      have h1 : (f a).filter (fun b => key b == a) = f a :=
        List.filter_eq_self.2 fun b hb => by
          simp [hf a (by simp) b hb]
      have h2 : (as.flatMap f).filter (fun b => key b == a) = [] := by
        apply List.filter_eq_nil_iff.2
        intro b hb
        rcases List.mem_flatMap.1 hb with ⟨a', ha', hb'⟩
        have : key b = a' := hf a' (by simp [ha']) b hb'
        have hne : a' ≠ a := fun h => hnd.1 (h ▸ ha')
        simp [this, hne]
      rw [h1, h2, List.append_nil]
    · have hsa : s ∈ as := by
        rcases List.mem_cons.1 hs with h | h
        · exact absurd h.symm ha
        · exact h
      have h0 : (f a).filter (fun b => key b == s) = [] := by
        apply List.filter_eq_nil_iff.2
        intro b hb
        have : key b = a := hf a (by simp) b hb
        simp [this, ha]
      rw [h0, List.nil_append]
      exact ih hnd.2 hsa (fun a' ha' => hf a' (by simp [ha']))

lemma mem_sortByTs_filter {rows : List BookRow} {s : ℕ} {r : BookRow}
    (hr : r ∈ sortByTs (rows.filter fun r => r.symbol == s)) : r.symbol = s := by
  have hp := List.perm_insertionSort (fun x y : BookRow => x.ts_event ≤ y.ts_event)
    (rows.filter fun r => r.symbol == s)
  have : r ∈ rows.filter fun r => r.symbol == s := hp.mem_iff.1 hr
  simpa using (List.mem_filter.1 this).2

/-- The rows of `calculate_order_flows` that carry symbol `s` are exactly the
processed time-sorted group of `s`. -/
lemma calc_filter_eq (levels : ℕ) (rows : List BookRow) (s : ℕ)
    (hs : s ∈ symbolsOf rows) :
    (calculate_order_flows levels rows).filter (fun fr => fr.base.symbol == s) =
      processGroup levels none (sortByTs (rows.filter fun r => r.symbol == s)) := by
  unfold calculate_order_flows
  exact flatMap_filter_single (fun fr => fr.base.symbol)
    (fun s' => processGroup levels none (sortByTs (rows.filter fun r => r.symbol == s')))
    (symbolsOf rows) s (symbolsOf_nodup rows) hs
    (fun a _ b hb => processGroup_symbol levels none _ a
      (fun r hr => mem_sortByTs_filter hr) b hb)

lemma of_b_cell_some (px sz ppx psz : ℚ) :
    of_b_cell px sz (some ppx) (some psz) =
      some (if ppx < px then sz else if px = ppx then sz - psz else -sz) := by
  unfold of_b_cell optGtB optEqB optSub
  split_ifs <;> simp_all

lemma of_a_cell_some (px sz ppx psz : ℚ) :
    of_a_cell px sz (some ppx) (some psz) =
      some (if ppx < px then -sz else if px = ppx then sz - psz else sz) := by
  unfold of_a_cell optGtB optEqB optSub
  split_ifs <;> simp_all

lemma of_b_cell_none (px sz : ℚ) : of_b_cell px sz none none = some (-sz) := by
  simp [of_b_cell, optGtB, optEqB]

lemma of_a_cell_none (px sz : ℚ) : of_a_cell px sz none none = some sz := by
  simp [of_a_cell, optGtB, optEqB]

/-- C2: for a row with a predecessor in its instrument's time-sorted
sequence, the computed flow cells equal the spec's case-branch formula. -/
theorem C2_flow_matches_spec_formula (levels : ℕ) (rows : List BookRow) (s : ℕ)
    (hs : s ∈ symbolsOf rows) (g : List BookRow)
    (hg : g = sortByTs (rows.filter fun r => r.symbol == s))
    (i l : ℕ) (hi : i + 1 < g.length) (hl : l < levels) :
    ∃ fr : FlowRow,
      ((calculate_order_flows levels rows).filter
        (fun fr => fr.base.symbol == s))[i+1]? = some fr ∧
      fr.base = g.get ⟨i+1, hi⟩ ∧
      fr.of_b[l]? = some (some (specBidFlow (g.get ⟨i+1, hi⟩) (g.get ⟨i, by omega⟩) l)) ∧
      fr.of_a[l]? = some (some (specAskFlow (g.get ⟨i+1, hi⟩) (g.get ⟨i, by omega⟩) l)) := by
  subst hg
  rw [calc_filter_eq levels rows s hs]
  rw [processGroup_getElem? levels none _ (i+1) hi]
  have hilt : i < (sortByTs (rows.filter fun r => r.symbol == s)).length := by omega
  have hprev : (if i + 1 = 0 then (none : Option BookRow)
      else (sortByTs (rows.filter fun r => r.symbol == s))[i+1-1]?) =
      some ((sortByTs (rows.filter fun r => r.symbol == s)).get ⟨i, hilt⟩) := by
    simp [List.getElem?_eq_getElem hilt]
  rw [hprev]
  refine ⟨_, rfl, ?_, ?_, ?_⟩
  · simp [mkFlowRow]
  · simp [mkFlowRow, List.getElem?_range hl, of_b_cell_some, specBidFlow]
  · simp [mkFlowRow, List.getElem?_range hl, of_a_cell_some, specAskFlow]

lemma group_length_as_count (rows : List BookRow) (s : ℕ) :
    (rows.filter fun r => r.symbol == s).length =
      List.count s (rows.map fun r => r.symbol) := by
  rw [List.count_eq_countP, List.countP_map, ← List.countP_eq_length_filter]
  rfl

/-- The per-symbol groups of `groupby("symbol")` partition the input rows. -/
lemma sum_group_lengths (rows : List BookRow) :
    (((symbolsOf rows).map fun s =>
      (rows.filter fun r => r.symbol == s).length)).sum = rows.length := by
  have hperm : (symbolsOf rows).Perm ((rows.map fun r => r.symbol).dedup) :=
    List.perm_insertionSort _ _
  have h1 := (hperm.map fun s => (rows.filter fun r => r.symbol == s).length).sum_eq
  rw [h1]
  simp only [group_length_as_count]
  have h2 := List.sum_map_count_dedup_eq_length (rows.map fun r => r.symbol)
  have h3 : (((rows.map fun r => r.symbol).dedup).map fun s =>
      List.count s (rows.map fun r => r.symbol)).sum =
      ((rows.map fun r => r.symbol).dedup.map fun x =>
        List.count x (rows.map fun r => r.symbol)).sum := rfl
  rw [h3, h2, List.length_map]

lemma calculate_order_flows_length (levels : ℕ) (rows : List BookRow) :
    (calculate_order_flows levels rows).length = rows.length := by
  unfold calculate_order_flows
  rw [List.length_flatMap]
  have : ((symbolsOf rows).map (List.length ∘ fun s =>
      processGroup levels none (sortByTs (rows.filter fun r => r.symbol == s)))) =
      ((symbolsOf rows).map fun s => (rows.filter fun r => r.symbol == s).length) := by
    apply List.map_congr_left
    intro s _
    have hlen := (List.perm_insertionSort (fun a b : BookRow => a.ts_event ≤ b.ts_event)
      (rows.filter fun r => r.symbol == s)).length_eq
    simp [Function.comp, processGroup_length, sortByTs, hlen]
  rw [this, sum_group_lengths]

lemma processGroup_mem (levels : ℕ) (prev : Option BookRow) (g : List BookRow)
    (fr : FlowRow) (hfr : fr ∈ processGroup levels prev g) :
    ∃ r p, fr = mkFlowRow levels r p := by
  induction g generalizing prev with
  | nil => simp [processGroup] at hfr
  | cons r rs ih =>
    simp only [processGroup, List.mem_cons] at hfr
    rcases hfr with h | h
    · exact ⟨r, prev, h⟩
    · exact ih (some r) h

lemma of_b_cell_mapped_isSome (px sz : ℚ) (p : Option BookRow)
    (f1 f2 : BookRow → ℚ) :
    ∃ q, of_b_cell px sz (p.map f1) (p.map f2) = some q := by
  cases p with
  | none => exact ⟨-sz, by simp [of_b_cell, optGtB, optEqB]⟩
  | some r =>
    simp only [Option.map_some']
    rw [of_b_cell_some]
    exact ⟨_, rfl⟩

lemma of_a_cell_mapped_isSome (px sz : ℚ) (p : Option BookRow)
    (f1 f2 : BookRow → ℚ) :
    ∃ q, of_a_cell px sz (p.map f1) (p.map f2) = some q := by
  cases p with
  | none => exact ⟨sz, by simp [of_a_cell, optGtB, optEqB]⟩
  | some r =>
    simp only [Option.map_some']
    rw [of_a_cell_some]
    exact ⟨_, rfl⟩

/-- C10: no row is dropped by `calculate_order_flows`, and each instrument's
first time-sorted row appears in the output with `of_{l}_b = -bid_sz_{l}` and
`of_{l}_a = +ask_sz_{l}` (the NaN comparisons against the missing predecessor
are false, so the final `np.where` branch is selected). -/
theorem C10_first_row_kept (levels : ℕ) (rows : List BookRow) :
    (calculate_order_flows levels rows).length = rows.length ∧
    ∀ s ∈ symbolsOf rows,
      ∀ r0 : BookRow, ∀ rest : List BookRow,
        sortByTs (rows.filter fun r => r.symbol == s) = r0 :: rest →
        ∃ fr : FlowRow,
          ((calculate_order_flows levels rows).filter
            (fun fr => fr.base.symbol == s))[0]? = some fr ∧
          fr.base = r0 ∧
          ∀ l, l < levels →
            fr.of_b[l]? = some (some (-(r0.bid_sz.getD l 0))) ∧
            fr.of_a[l]? = some (some (r0.ask_sz.getD l 0)) := by
  refine ⟨calculate_order_flows_length levels rows, ?_⟩
  intro s hs r0 rest hsplit
  rw [calc_filter_eq levels rows s hs, hsplit]
  refine ⟨mkFlowRow levels r0 none, by simp [processGroup], by simp [mkFlowRow], ?_⟩
  intro l hl
  constructor
  · simp [mkFlowRow, List.getElem?_range hl, of_b_cell, optGtB, optEqB]
  · simp [mkFlowRow, List.getElem?_range hl, of_a_cell, optGtB, optEqB]

/-- First snapshot used in concrete instances: symbol 0, time 0, one level
with bid 10 (size 5) and ask 11 (size 7). -/
def wRow0 : BookRow := ⟨0, 0, [10], [11], [5], [7]⟩

/-- Second snapshot of symbol 0 at time 1: bid up to 12 (size 4), ask up to
13 (size 6). -/
def wRow1 : BookRow := ⟨0, 1, [12], [13], [4], [6]⟩

/-- C1 counterexample: on a one-row table the single row is the first (and
only) row of its instrument, yet `calculate_order_flows` keeps it and emits
`of_0_b = -bid_sz` and `of_0_a = +ask_sz` for it, so the first row is neither
excluded from the output nor left without flow values. -/
theorem C1_counterexample :
    (calculate_order_flows 1 [wRow0]).length = 1 ∧
    ∃ fr ∈ calculate_order_flows 1 [wRow0],
      fr.base = wRow0 ∧ fr.of_b[0]? = some (some ((-5 : ℚ))) ∧
      fr.of_a[0]? = some (some ((7 : ℚ))) := by decide

/-- C1 amended: the first row per instrument is not excluded from the output
of `calculate_order_flows`; every output row (the first of each instrument
included) carries a defined `of_{l}_b` and `of_{l}_a` value at every level,
because the NaN comparisons select the final branch of each `np.where`. -/
theorem C1_amended_all_flows_defined (levels : ℕ) (rows : List BookRow)
    (fr : FlowRow) (hfr : fr ∈ calculate_order_flows levels rows)
    (l : ℕ) (hl : l < levels) :
    (∃ q, fr.of_b[l]? = some (some q)) ∧ (∃ q, fr.of_a[l]? = some (some q)) := by
  rcases List.mem_flatMap.1 hfr with ⟨s, hsmem, hmem⟩
  rcases processGroup_mem _ _ _ _ hmem with ⟨r, p, rfl⟩
  constructor
  · rcases of_b_cell_mapped_isSome (r.bid_px.getD l 0) (r.bid_sz.getD l 0) p
      (fun p => p.bid_px.getD l 0) (fun p => p.bid_sz.getD l 0) with ⟨q, hq⟩
    refine ⟨q, ?_⟩
    simp only [mkFlowRow, List.getElem?_map, List.getElem?_range hl, Option.map_some']
    rw [hq]
  · rcases of_a_cell_mapped_isSome (r.ask_px.getD l 0) (r.ask_sz.getD l 0) p
      (fun p => p.ask_px.getD l 0) (fun p => p.ask_sz.getD l 0) with ⟨q, hq⟩
    refine ⟨q, ?_⟩
    simp only [mkFlowRow, List.getElem?_map, List.getElem?_range hl, Option.map_some']
    rw [hq]

theorem C1_amended_all_flows_defined_witness :
    (∃ q, (FlowRow.mk wRow0 [some (-5)] [some 7]).of_b[0]? = some (some q)) ∧
      (∃ q, (FlowRow.mk wRow0 [some (-5)] [some 7]).of_a[0]? = some (some q)) :=
  C1_amended_all_flows_defined 1 [wRow0] (FlowRow.mk wRow0 [some (-5)] [some 7])
    (by decide) 0 (by decide)

theorem C2_flow_matches_spec_formula_witness :
    ∃ fr : FlowRow,
      ((calculate_order_flows 1 [wRow0, wRow1]).filter
        (fun fr => fr.base.symbol == 0))[0+1]? = some fr ∧
      fr.base = ([wRow0, wRow1].get ⟨0+1, by decide⟩) ∧
      fr.of_b[0]? = some (some (specBidFlow
        ([wRow0, wRow1].get ⟨0+1, by decide⟩) ([wRow0, wRow1].get ⟨0, by decide⟩) 0)) ∧
      fr.of_a[0]? = some (some (specAskFlow
        ([wRow0, wRow1].get ⟨0+1, by decide⟩) ([wRow0, wRow1].get ⟨0, by decide⟩) 0)) :=
  C2_flow_matches_spec_formula 1 [wRow0, wRow1] 0 (by decide) [wRow0, wRow1]
    (by decide) 0 0 (by decide) (by decide)

theorem C10_first_row_kept_witness :
    (calculate_order_flows 1 [wRow0, wRow1]).length = [wRow0, wRow1].length ∧
    ∃ fr : FlowRow,
      ((calculate_order_flows 1 [wRow0, wRow1]).filter
        (fun fr => fr.base.symbol == 0))[0]? = some fr ∧
      fr.base = wRow0 ∧
      ∀ l, l < 1 →
        fr.of_b[l]? = some (some (-(wRow0.bid_sz.getD l 0))) ∧
        fr.of_a[l]? = some (some (wRow0.ask_sz.getD l 0)) :=
  ⟨(C10_first_row_kept 1 [wRow0, wRow1]).1,
    (C10_first_row_kept 1 [wRow0, wRow1]).2 0 (by decide) wRow0 [wRow1] (by decide)⟩

/-!
Returns calculator (scripts/returns.py, `calculate_log_returns`).

The float cells of the `log_return` column can hold NaN or ±infinity, which
the code manipulates explicitly (`replace([inf, -inf], nan)`, `dropna`), so
a cell is embedded as a class: finite, +inf, -inf, or NaN.  For a finite
logarithm the payload kept is the positive mid-price ratio whose (finite,
irrational) logarithm the float holds — the claims concern definedness and
row counts, never the transcendental value itself.
-/

/-- One float cell of the derived `log_return` column. -/
inductive FVal where
  | fin (r : ℚ)
  | pinf
  | ninf
  | nan
deriving DecidableEq, Repr

/-- IEEE division `cur / prev`, where `prev` may be the NaN left by
`shift(1)`: NaN propagates, division by zero gives a signed infinity (or NaN
for 0/0). -/
def fdivQ (cur : ℚ) (prev : Option ℚ) : FVal :=
  match prev with
  | none => .nan
  | some p =>
    if p = 0 then
      if 0 < cur then .pinf else if cur < 0 then .ninf else .nan
    else .fin (cur / p)

/-- Class of `np.log`: log of a positive finite ratio is finite (the ratio is
kept as payload), log 0 = -inf, log of a negative number is NaN, log(+inf) =
+inf, log(NaN) = NaN. -/
def flogC : FVal → FVal
  | .fin r => if 0 < r then .fin r else if r = 0 then .ninf else .nan
  | .pinf => .pinf
  | .ninf => .nan
  | .nan => .nan

/-- One input row of `calculate_log_returns` (best bid/ask only; the other
columns of the snapshot play no role in the output). -/
structure RetRow where
  symbol : ℕ
  ts_event : ℕ
  bid_px_00 : ℚ
  ask_px_00 : ℚ
deriving DecidableEq, Repr

/-- One output row of `calculate_log_returns`: the selected columns
`["symbol", "ts_event", "log_return"]`. -/
structure RetOut where
  symbol : ℕ
  ts_event : ℕ
  log_return : FVal
deriving DecidableEq, Repr

/-- Step 2 of returns.py: `mid_price = (bid_px_00 + ask_px_00) / 2`. -/
def mid_price (r : RetRow) : ℚ := (r.bid_px_00 + r.ask_px_00) / 2

/-- Step 3 of returns.py per instrument group, in existing row order (no sort
in this component): `log_return = log(mid_price / mid_price.shift(1))`; the
carried `prev` is the shifted predecessor mid-price. -/
def annotateGroup (prev : Option ℚ) : List RetRow → List (RetRow × FVal)
  | [] => []
  | r :: rs => (r, flogC (fdivQ (mid_price r) prev)) ::
      annotateGroup (some (mid_price r)) rs

/-- Step 4 of returns.py: `replace([inf, -inf], nan)`. -/
def replaceInf (v : FVal) : FVal :=
  match v with
  | .pinf => .nan
  | .ninf => .nan
  | v => v

/-- Steps 4-5 of returns.py fused per row: replace infinities by NaN, drop the
row when the result is NaN, and keep the selected output columns. -/
def dropNanRow (rv : RetRow × FVal) : Option RetOut :=
  match replaceInf rv.2 with
  | .nan => none
  | v => some ⟨rv.1.symbol, rv.1.ts_event, v⟩

/-- The sorted distinct instrument keys of `groupby("symbol")` on the returns
input. -/
def retSymbolsOf (rows : List RetRow) : List ℕ :=
  List.insertionSort (fun a b => a ≤ b) ((rows.map (fun r => r.symbol)).dedup)

/-- Shallow embedding of `calculate_log_returns` (returns.py lines 19-42) on
an input whose required columns are present: per instrument (groups emitted
in ascending key order, rows kept in existing order), compute the log-return
of consecutive mid-prices, replace infinities with NaN, drop NaN rows, and
keep `symbol`, `ts_event`, `log_return`. -/
def calculate_log_returns (rows : List RetRow) : List RetOut :=
  ((retSymbolsOf rows).flatMap fun s =>
    annotateGroup none (rows.filter fun r => r.symbol == s)).filterMap dropNanRow

lemma retSymbolsOf_nodup (rows : List RetRow) : (retSymbolsOf rows).Nodup := by
  unfold retSymbolsOf
  exact (List.perm_insertionSort _ _).symm.nodup (List.nodup_dedup _)

lemma annotateGroup_fst (prev : Option ℚ) (g : List RetRow) :
    ∀ rv ∈ annotateGroup prev g, rv.1 ∈ g := by
  induction g generalizing prev with
  | nil => simp [annotateGroup]
  | cons r rs ih =>
    intro rv hrv
    simp only [annotateGroup, List.mem_cons] at hrv
    rcases hrv with h | h
    · simp [h]
    · exact List.mem_cons_of_mem _ (ih (some (mid_price r)) rv h)

lemma dropNanRow_some {rv : RetRow × FVal} {out : RetOut}
    (h : dropNanRow rv = some out) :
    out.symbol = rv.1.symbol ∧ ∃ q, out.log_return = FVal.fin q := by
  cases hrv : rv.2 with
  | fin r =>
    simp only [dropNanRow, hrv, replaceInf] at h
    cases h
    exact ⟨rfl, r, rfl⟩
  | pinf => simp [dropNanRow, hrv, replaceInf] at h
  | ninf => simp [dropNanRow, hrv, replaceInf] at h
  | nan => simp [dropNanRow, hrv, replaceInf] at h

lemma annotate_some_len (g : List RetRow) (hg : ∀ r ∈ g, 0 < mid_price r) :
    ∀ p : ℚ, 0 < p →
      ((annotateGroup (some p) g).filterMap dropNanRow).length = g.length := by
  induction g with
  | nil => simp [annotateGroup]
  | cons r rs ih =>
    intro p hp
    have hmid : 0 < mid_price r := hg r (by simp)
    have hq : 0 < mid_price r / p := div_pos hmid hp
    have hkeep : dropNanRow (r, flogC (fdivQ (mid_price r) (some p))) =
        some ⟨r.symbol, r.ts_event, .fin (mid_price r / p)⟩ := by
      simp [fdivQ, ne_of_gt hp, flogC, hq, dropNanRow, replaceInf]
    simp only [annotateGroup, List.filterMap_cons, hkeep, List.length_cons]
    rw [ih (fun r' hr' => hg r' (by simp [hr'])) (mid_price r) hmid]

lemma annotate_none_len (g : List RetRow) (hg : ∀ r ∈ g, 0 < mid_price r) :
    ((annotateGroup none g).filterMap dropNanRow).length = g.length - 1 := by
  cases g with
  | nil => simp [annotateGroup]
  | cons r rs =>
    have hdrop : dropNanRow (r, flogC (fdivQ (mid_price r) none)) = none := by
      simp [fdivQ, flogC, dropNanRow, replaceInf]
    simp only [annotateGroup, List.filterMap_cons, hdrop, List.length_cons]
    rw [annotate_some_len rs (fun r' hr' => hg r' (by simp [hr'])) (mid_price r)
      (hg r (by simp))]
    simp

lemma calc_log_returns_filter (rows : List RetRow) (s : ℕ)
    (hs : s ∈ retSymbolsOf rows) :
    (calculate_log_returns rows).filter (fun o => o.symbol == s) =
      (annotateGroup none (rows.filter fun r => r.symbol == s)).filterMap
        dropNanRow := by
  unfold calculate_log_returns
  rw [List.filterMap_flatMap]
  exact flatMap_filter_single (fun o => o.symbol)
    (fun s' => (annotateGroup none (rows.filter fun r => r.symbol == s')).filterMap
      dropNanRow)
    (retSymbolsOf rows) s (retSymbolsOf_nodup rows) hs
    (fun a _ out hout => by
      rcases List.mem_filterMap.1 hout with ⟨rv, hrv, hsome⟩
      have h1 := annotateGroup_fst none _ rv hrv
      have h2 : rv.1.symbol = a := by simpa using (List.mem_filter.1 h1).2
      show out.symbol = a
      rw [(dropNanRow_some hsome).1, h2])

/-- C4 counterexample: symbol 0 has three rows at distinct timestamps (no
ties), with mid-prices 1, 0, 1; the zero mid-price makes the second
log-return -inf and the third +inf, both replaced by NaN and dropped, so the
output has 0 rows, not N-1 = 2. -/
theorem C4_counterexample :
    (calculate_log_returns
      [⟨0, 0, 1, 1⟩, ⟨0, 1, 0, 0⟩, ⟨0, 2, 1, 1⟩]).length = 0 ∧
    ([(⟨0, 0, 1, 1⟩ : RetRow), ⟨0, 1, 0, 0⟩, ⟨0, 2, 1, 1⟩].filter
      (fun r => r.symbol == 0)).length = 3 := by
  constructor
  · norm_num [calculate_log_returns, retSymbolsOf, List.insertionSort,
      List.orderedInsert, annotateGroup, mid_price, fdivQ, flogC, dropNanRow,
      replaceInf]
  · norm_num

/-- C4 amended: `calculate_log_returns` never emits a row with a non-finite
`log_return`; and when every mid-price is strictly positive (so no zero or
negative mid-price ratio arises), it emits exactly N-1 rows for an instrument
with N input rows. -/
theorem C4_finite_and_counts (rows : List RetRow) :
    (∀ out ∈ calculate_log_returns rows, ∃ q, out.log_return = FVal.fin q) ∧
    ((∀ r ∈ rows, 0 < mid_price r) →
      ∀ s ∈ retSymbolsOf rows,
        ((calculate_log_returns rows).filter (fun o => o.symbol == s)).length =
          (rows.filter (fun r => r.symbol == s)).length - 1) := by
  constructor
  · intro out hout
    rcases List.mem_filterMap.1 hout with ⟨rv, _, hsome⟩
    exact (dropNanRow_some hsome).2
  · intro hpos s hs
    rw [calc_log_returns_filter rows s hs]
    exact annotate_none_len _ (fun r hr => hpos r (List.mem_filter.1 hr).1)

theorem C4_finite_and_counts_witness :
    (∀ out ∈ calculate_log_returns [⟨0, 0, 1, 1⟩, ⟨0, 1, 2, 2⟩],
      ∃ q, out.log_return = FVal.fin q) ∧
    ((calculate_log_returns [⟨0, 0, 1, 1⟩, ⟨0, 1, 2, 2⟩]).filter
        (fun o => o.symbol == 0)).length =
      ([(⟨0, 0, 1, 1⟩ : RetRow), ⟨0, 1, 2, 2⟩].filter
        (fun r => r.symbol == 0)).length - 1 :=
  ⟨(C4_finite_and_counts [⟨0, 0, 1, 1⟩, ⟨0, 1, 2, 2⟩]).1,
    (C4_finite_and_counts [⟨0, 0, 1, 1⟩, ⟨0, 1, 2, 2⟩]).2
      (by intro r hr; fin_cases hr <;> norm_num [mid_price]) 0 (by decide)⟩

/-!
Preprocessor (scripts/cross_impact.py, `preprocess_data`).
-/

/-- One row of the joined OFI/returns table handled by `preprocess_data`
(columns ts_event, symbol, ofi_pca, log_return, mid_price). -/
structure PRow where
  ts_event : ℕ
  symbol : ℕ
  ofi_pca : ℚ
  log_return : ℚ
  mid_price : ℚ
deriving DecidableEq, Repr

/-- The duplicate-detection key `["ts_event", "symbol"]`. -/
def pKey (r : PRow) : ℕ × ℕ := (r.ts_event, r.symbol)

/-- The `duplicated(subset=["ts_event","symbol"], keep=False)` test of
cross_impact.py line 76: the table has duplicates iff some key occurs at
least twice. -/
def hasDuplicates (rows : List PRow) : Bool :=
  rows.any fun r => 2 ≤ rows.countP fun r2 => decide (pKey r2 = pKey r)

/-- The sorted distinct keys of `groupby(["ts_event","symbol"])` (pandas
emits groups in ascending lexicographic key order). -/
def pKeys (rows : List PRow) : List (ℕ × ℕ) :=
  List.insertionSort (fun a b => a.1 < b.1 ∨ (a.1 = b.1 ∧ a.2 ≤ b.2))
    ((rows.map pKey).dedup)

/-- Column mean used by `.agg({...: "mean"})`. -/
def qMean (xs : List ℚ) : ℚ := xs.sum / xs.length

/-- The `groupby(["ts_event","symbol"], as_index=False).agg(mean)` collapse
of cross_impact.py lines 84-88: one output row per distinct key, averaging
the three value columns. -/
def groupMeans (rows : List PRow) : List PRow :=
  (pKeys rows).map fun k =>
    let g := rows.filter fun r => decide (pKey r = k)
    ⟨k.1, k.2, qMean (g.map fun r => r.ofi_pca),
      qMean (g.map fun r => r.log_return),
      qMean (g.map fun r => r.mid_price)⟩

/-- Shallow embedding of `preprocess_data` (cross_impact.py lines 72-91):
collapse duplicates by key-mean when any exist, otherwise pass the table
through unchanged. -/
def preprocess_data (rows : List PRow) : List PRow :=
  if hasDuplicates rows then groupMeans rows else rows

lemma pKeys_nodup (rows : List PRow) : (pKeys rows).Nodup := by
  unfold pKeys
  exact (List.perm_insertionSort _ _).symm.nodup (List.nodup_dedup _)

lemma countP_self_le_one {α : Type} [DecidableEq α] (ks : List α)
    (hnd : ks.Nodup) (a : α) :
    ks.countP (fun x => decide (x = a)) ≤ 1 := by
  induction ks with
  | nil => simp
  | cons k ks ih =>
    rw [List.nodup_cons] at hnd
    rw [List.countP_cons]
    by_cases h : k = a
    · subst h
      have hz : ks.countP (fun x => decide (x = k)) = 0 :=
        List.countP_eq_zero.2 fun x hx => by
          simp only [decide_eq_true_eq]
          exact fun hxk => hnd.1 (hxk ▸ hx)
      simp [hz]
    · simp only [h, decide_eq_true_eq, if_neg h]
      simpa using ih hnd.2

lemma countP_comp_le_one {α β : Type} [DecidableEq α] (ks : List α)
    (hnd : ks.Nodup) (f : α → β) (p : β → Bool) (a : α)
    (hp : ∀ k, p (f k) = decide (k = a)) :
    (ks.map f).countP p ≤ 1 := by
  rw [List.countP_map]
  have hcong : ks.countP (p ∘ f) = ks.countP (fun x => decide (x = a)) :=
    List.countP_congr fun k _ => by simp [Function.comp, hp]
  rw [hcong]
  exact countP_self_le_one ks hnd a

lemma groupMeans_no_dup (rows : List PRow) :
    hasDuplicates (groupMeans rows) = false := by
  unfold hasDuplicates
  rw [List.any_eq_false]
  intro r hr
  have hcount : (groupMeans rows).countP (fun r2 => decide (pKey r2 = pKey r)) ≤ 1 := by
    unfold groupMeans
    apply countP_comp_le_one _ (pKeys_nodup rows) _ _ (pKey r)
    intro k
    simp [pKey]
  simp only [decide_eq_true_eq, Bool.not_eq_true] at hcount ⊢
  omega

/-- C5: `preprocess_data` is idempotent — one pass eliminates every
(ts_event, symbol) duplicate, so a second pass is the identity — and an input
without duplicate keys passes through unchanged. -/
theorem C5_preprocess_idempotent (rows : List PRow) :
    preprocess_data (preprocess_data rows) = preprocess_data rows ∧
    (hasDuplicates rows = false → preprocess_data rows = rows) := by
  constructor
  · by_cases h : hasDuplicates rows
    · have h1 : preprocess_data rows = groupMeans rows := by
        simp [preprocess_data, h]
      rw [h1]
      simp [preprocess_data, groupMeans_no_dup rows]
    · have h1 : preprocess_data rows = rows := by
        simp [preprocess_data, h]
      rw [h1, h1]
  · intro h
    simp [preprocess_data, h]

theorem C5_preprocess_idempotent_witness :
    preprocess_data (preprocess_data [(⟨0, 0, 1, 1, 1⟩ : PRow), ⟨1, 0, 2, 2, 2⟩]) =
      preprocess_data [(⟨0, 0, 1, 1, 1⟩ : PRow), ⟨1, 0, 2, 2, 2⟩] ∧
    preprocess_data [(⟨0, 0, 1, 1, 1⟩ : PRow), ⟨1, 0, 2, 2, 2⟩] =
      [(⟨0, 0, 1, 1, 1⟩ : PRow), ⟨1, 0, 2, 2, 2⟩] :=
  ⟨(C5_preprocess_idempotent _).1, (C5_preprocess_idempotent _).2 (by decide)⟩

/-!
Aggregator (scripts/ofi_calculation.py, `aggregate_order_book_data`).

A raw quote row is embedded with its ladder plus the auxiliary `action`,
`side`, `price` fields.  Resampling per instrument materializes one output
row per interval-wide bucket between the instrument's first and last bucket;
the per-bucket reduction is `last` for price and auxiliary columns (NaN,
i.e. `none`, for an empty bucket) and `sum` for size columns (0 for an empty
bucket, as pandas sums an empty bin to 0).
-/

/-- One raw order-book row for the aggregator (categoricals as naturals). -/
structure AggRow where
  symbol : ℕ
  ts_event : ℕ
  bid_px : List ℚ
  ask_px : List ℚ
  bid_sz : List ℚ
  ask_sz : List ℚ
  action : ℕ
  side : ℕ
  price : ℚ
deriving DecidableEq, Repr

/-- One aggregated output row (`bucket` is the resample-bin index, i.e. the
bin's start time divided by the interval). -/
structure AggOut where
  symbol : ℕ
  bucket : ℕ
  bid_px : List (Option ℚ)
  ask_px : List (Option ℚ)
  bid_sz : List ℚ
  ask_sz : List ℚ
  action : Option ℕ
  side : Option ℕ
  price : Option ℚ
deriving DecidableEq, Repr

/-- Ascending time order within an instrument group (resampling reduces each
bin in time order). -/
def sortByTsA (g : List AggRow) : List AggRow :=
  List.insertionSort (fun a b => a.ts_event ≤ b.ts_event) g

/-- The sorted distinct instrument keys of `groupby("symbol")`. -/
def aggSymbolsOf (rows : List AggRow) : List ℕ :=
  List.insertionSort (fun a b => a ≤ b) ((rows.map (fun r => r.symbol)).dedup)

/-- The resample bin of a row: its timestamp divided by the interval width
(in the timestamp's unit). -/
def bucketOf (interval : ℕ) (r : AggRow) : ℕ := r.ts_event / interval

/-- The per-bucket reduction of `aggregation_rules` (ofi_calculation.py lines
118-129): `last` for every price column and for `action`/`side`/`price`,
`sum` for every size column. -/
def aggBucket (levels : ℕ) (s b : ℕ) (br : List AggRow) : AggOut :=
  { symbol := s, bucket := b,
    bid_px := (List.range levels).map fun l => br.getLast?.map fun r => r.bid_px.getD l 0,
    ask_px := (List.range levels).map fun l => br.getLast?.map fun r => r.ask_px.getD l 0,
    bid_sz := (List.range levels).map fun l => (br.map fun r => r.bid_sz.getD l 0).sum,
    ask_sz := (List.range levels).map fun l => (br.map fun r => r.ask_sz.getD l 0).sum,
    action := br.getLast?.map fun r => r.action,
    side := br.getLast?.map fun r => r.side,
    price := br.getLast?.map fun r => r.price }

/-- Resampling of one (time-sorted) instrument group: one output row per
bucket from the group's smallest bucket to its largest. -/
def processAggGroup (levels interval s : ℕ) : List AggRow → List AggOut
  | [] => []
  | r0 :: rest =>
    let bs := (r0 :: rest).map (bucketOf interval)
    let bmin := bs.foldl Nat.min (bucketOf interval r0)
    let bmax := bs.foldl Nat.max (bucketOf interval r0)
    (List.range (bmax + 1 - bmin)).map fun k =>
      aggBucket levels s (bmin + k)
        ((r0 :: rest).filter fun r => bucketOf interval r == bmin + k)

/-- Shallow embedding of `aggregate_order_book_data` (ofi_calculation.py
lines 107-140) on an input whose required columns are present: group by
instrument in ascending key order and resample each group by the interval. -/
def aggregate_order_book_data (levels interval : ℕ) (rows : List AggRow) :
    List AggOut :=
  (aggSymbolsOf rows).flatMap fun s =>
    processAggGroup levels interval s (sortByTsA (rows.filter fun r => r.symbol == s))

lemma foldl_min_le_init (l : List ℕ) (a : ℕ) : l.foldl Nat.min a ≤ a := by
  induction l generalizing a with
  | nil => exact le_refl a
  | cons x xs ih => exact le_trans (ih (Nat.min a x)) (Nat.min_le_left a x)

lemma foldl_min_le_mem (l : List ℕ) (a x : ℕ) (hx : x ∈ l) :
    l.foldl Nat.min a ≤ x := by
  induction l generalizing a with
  | nil => simp at hx
  | cons y ys ih =>
    rcases List.mem_cons.1 hx with h | h
    · subst h
      exact le_trans (foldl_min_le_init ys (Nat.min a x)) (Nat.min_le_right a x)
    · exact ih (Nat.min a y) h

lemma le_foldl_max_init (l : List ℕ) (a : ℕ) : a ≤ l.foldl Nat.max a := by
  induction l generalizing a with
  | nil => exact le_refl a
  | cons x xs ih => exact le_trans (Nat.le_max_left a x) (ih (Nat.max a x))

lemma le_foldl_max_mem (l : List ℕ) (a x : ℕ) (hx : x ∈ l) :
    x ≤ l.foldl Nat.max a := by
  induction l generalizing a with
  | nil => simp at hx
  | cons y ys ih =>
    rcases List.mem_cons.1 hx with h | h
    · subst h
      exact le_trans (Nat.le_max_right a x) (le_foldl_max_init ys (Nat.max a x))
    · exact ih (Nat.max a y) h

/-- C7: for every non-empty bucket of an instrument, the aggregated output
holds the last-observed value for every bid/ask price column, the bucket sum
for every bid/ask size column, and the last-observed `action`, `side`,
`price`. -/
theorem C7_bucket_reduction (levels interval : ℕ) (rows : List AggRow)
    (s b : ℕ) (hs : s ∈ aggSymbolsOf rows)
    (hne : (sortByTsA (rows.filter fun r => r.symbol == s)).filter
      (fun r => bucketOf interval r == b) ≠ []) :
    ∃ out ∈ aggregate_order_book_data levels interval rows,
      out.symbol = s ∧ out.bucket = b ∧
      out = aggBucket levels s b
        ((sortByTsA (rows.filter fun r => r.symbol == s)).filter
          (fun r => bucketOf interval r == b)) ∧
      (∀ l, l < levels →
        out.bid_px[l]? = some (((sortByTsA (rows.filter fun r => r.symbol == s)).filter
          (fun r => bucketOf interval r == b)).getLast?.map fun r => r.bid_px.getD l 0) ∧
        out.ask_px[l]? = some (((sortByTsA (rows.filter fun r => r.symbol == s)).filter
          (fun r => bucketOf interval r == b)).getLast?.map fun r => r.ask_px.getD l 0) ∧
        out.bid_sz[l]? = some ((((sortByTsA (rows.filter fun r => r.symbol == s)).filter
          (fun r => bucketOf interval r == b)).map fun r => r.bid_sz.getD l 0).sum) ∧
        out.ask_sz[l]? = some ((((sortByTsA (rows.filter fun r => r.symbol == s)).filter
          (fun r => bucketOf interval r == b)).map fun r => r.ask_sz.getD l 0).sum)) ∧
      out.action = (((sortByTsA (rows.filter fun r => r.symbol == s)).filter
        (fun r => bucketOf interval r == b)).getLast?.map fun r => r.action) ∧
      out.side = (((sortByTsA (rows.filter fun r => r.symbol == s)).filter
        (fun r => bucketOf interval r == b)).getLast?.map fun r => r.side) ∧
      out.price = (((sortByTsA (rows.filter fun r => r.symbol == s)).filter
        (fun r => bucketOf interval r == b)).getLast?.map fun r => r.price) := by
  have hgne : sortByTsA (rows.filter fun r => r.symbol == s) ≠ [] := by
    intro h
    apply hne
    rw [h]
    rfl
  rcases List.exists_cons_of_ne_nil hgne with ⟨r0, rest, hsplit⟩
  rcases List.exists_mem_of_ne_nil _ hne with ⟨rb, hrb⟩
  have hrbg := List.mem_filter.1 hrb
  have hrb_b : bucketOf interval rb = b := by simpa using hrbg.2
  have hbs : b ∈ (r0 :: rest).map (bucketOf interval) := by
    rw [← hsplit]
    exact List.mem_map.2 ⟨rb, hrbg.1, hrb_b⟩
  have hbmin : ((r0 :: rest).map (bucketOf interval)).foldl Nat.min
      (bucketOf interval r0) ≤ b := foldl_min_le_mem _ _ b hbs
  have hbmax : b ≤ ((r0 :: rest).map (bucketOf interval)).foldl Nat.max
      (bucketOf interval r0) := le_foldl_max_mem _ _ b hbs
  refine ⟨aggBucket levels s b
    ((sortByTsA (rows.filter fun r => r.symbol == s)).filter
      (fun r => bucketOf interval r == b)), ?_, rfl, rfl, rfl, ?_, rfl, rfl, rfl⟩
  · apply List.mem_flatMap.2
    refine ⟨s, hs, ?_⟩
    rw [hsplit]
    simp only [processAggGroup]
    apply List.mem_map.2
    refine ⟨b - ((r0 :: rest).map (bucketOf interval)).foldl Nat.min
      (bucketOf interval r0), List.mem_range.2 (by omega), ?_⟩
    rw [show ((r0 :: rest).map (bucketOf interval)).foldl Nat.min
      (bucketOf interval r0) + (b - ((r0 :: rest).map (bucketOf interval)).foldl
        Nat.min (bucketOf interval r0)) = b by omega]
  · intro l hl
    refine ⟨?_, ?_, ?_, ?_⟩ <;>
      simp [aggBucket, List.getElem?_map, List.getElem?_range hl]

/-- Two quotes of instrument 0 inside one bucket (interval 2, timestamps 0
and 1): bid sizes 50 then 30, bid prices 10 then 12. -/
def aggQuote0 : AggRow := ⟨0, 0, [10], [11], [50], [5], 0, 0, 10⟩

/-- Second quote of the aggregation scenario. -/
def aggQuote1 : AggRow := ⟨0, 1, [12], [13], [30], [6], 1, 1, 12⟩

theorem C7_bucket_reduction_witness :
    ∃ out ∈ aggregate_order_book_data 1 2 [aggQuote0, aggQuote1],
      out.symbol = 0 ∧ out.bucket = 0 ∧
      out = aggBucket 1 0 0
        ((sortByTsA ([aggQuote0, aggQuote1].filter fun r => r.symbol == 0)).filter
          (fun r => bucketOf 2 r == 0)) ∧
      (∀ l, l < 1 →
        out.bid_px[l]? = some (((sortByTsA ([aggQuote0, aggQuote1].filter
            fun r => r.symbol == 0)).filter
          (fun r => bucketOf 2 r == 0)).getLast?.map fun r => r.bid_px.getD l 0) ∧
        out.ask_px[l]? = some (((sortByTsA ([aggQuote0, aggQuote1].filter
            fun r => r.symbol == 0)).filter
          (fun r => bucketOf 2 r == 0)).getLast?.map fun r => r.ask_px.getD l 0) ∧
        out.bid_sz[l]? = some ((((sortByTsA ([aggQuote0, aggQuote1].filter
            fun r => r.symbol == 0)).filter
          (fun r => bucketOf 2 r == 0)).map fun r => r.bid_sz.getD l 0).sum) ∧
        out.ask_sz[l]? = some ((((sortByTsA ([aggQuote0, aggQuote1].filter
            fun r => r.symbol == 0)).filter
          (fun r => bucketOf 2 r == 0)).map fun r => r.ask_sz.getD l 0).sum)) ∧
      out.action = (((sortByTsA ([aggQuote0, aggQuote1].filter
          fun r => r.symbol == 0)).filter
        (fun r => bucketOf 2 r == 0)).getLast?.map fun r => r.action) ∧
      out.side = (((sortByTsA ([aggQuote0, aggQuote1].filter
          fun r => r.symbol == 0)).filter
        (fun r => bucketOf 2 r == 0)).getLast?.map fun r => r.side) ∧
      out.price = (((sortByTsA ([aggQuote0, aggQuote1].filter
          fun r => r.symbol == 0)).filter
        (fun r => bucketOf 2 r == 0)).getLast?.map fun r => r.price) :=
  C7_bucket_reduction 1 2 [aggQuote0, aggQuote1] 0 0 (by decide) (by decide)

/-- Zero-padded two-digit level suffix `{level:02d}`. -/
def pad2 (l : ℕ) : String := if l < 10 then "0" ++ toString l else toString l

/-- The four ladder columns of one level, in the order the source lists
them. -/
def levelCols (l : ℕ) : List String :=
  ["bid_px_" ++ pad2 l, "ask_px_" ++ pad2 l, "bid_sz_" ++ pad2 l, "ask_sz_" ++ pad2 l]

/-- The keys of `aggregation_rules` (ofi_calculation.py lines 118-129): the
per-level price and size columns, plus — unconditionally — `action`, `side`
and `price`. -/
def agg_rule_columns (levels : ℕ) : List String :=
  ((List.range levels).flatMap levelCols) ++ ["action", "side", "price"]

/-- Column-presence layer of `aggregate_order_book_data`: pandas raises a
KeyError when `set_index("ts_event")`, `groupby("symbol")` or
`.agg(aggregation_rules)` names a column absent from the frame; the value
computation is the typed embedding above. -/
def aggregate_order_book_data_checked (levels interval : ℕ) (cols : List String)
    (rows : List AggRow) : Except String (List AggOut) :=
  if "ts_event" ∈ cols ∧ "symbol" ∈ cols ∧ ∀ c ∈ agg_rule_columns levels, c ∈ cols
  then .ok (aggregate_order_book_data levels interval rows)
  else .error "KeyError"

/-- The order-flow input schema (§6 of the spec): `symbol`, `ts_event`, and
the per-level ladder columns; also the columns `calculate_order_flows`
validates (ofi_calculation.py lines 24-26). -/
def ofi_required_columns (levels : ℕ) : List String :=
  ["symbol", "ts_event"] ++ (List.range levels).flatMap levelCols

/-- Truth of the success constructor of an `Except` result. -/
def isOkE {ε α : Type} : Except ε α → Bool
  | Except.ok _ => true
  | Except.error _ => false

/-- C6 counterexample: an input holding exactly the order-flow input schema
(here for the aggregator's default 6 levels) is rejected by the aggregator —
`.agg` names the absent `action`, `side`, `price` columns and raises a
KeyError — rather than accepted. -/
theorem C6_counterexample :
    isOkE (aggregate_order_book_data_checked 6 1 (ofi_required_columns 6) []) =
      false := by decide

/-- C6 amended: `action`, `side` and `price` are not optional for the
Aggregator: `aggregation_rules` names them unconditionally, so aggregation
succeeds iff `ts_event`, `symbol` and every rule column — the three auxiliary
columns included — are present; an input with only the order-flow schema is
rejected. -/
theorem C6_aux_columns_required (levels interval : ℕ) (cols : List String)
    (rows : List AggRow) :
    (isOkE (aggregate_order_book_data_checked levels interval cols rows) = true ↔
      ("ts_event" ∈ cols ∧ "symbol" ∈ cols ∧
        ∀ c ∈ agg_rule_columns levels, c ∈ cols)) ∧
    "action" ∈ agg_rule_columns levels ∧ "side" ∈ agg_rule_columns levels ∧
      "price" ∈ agg_rule_columns levels := by
  refine ⟨?_, by simp [agg_rule_columns], by simp [agg_rule_columns],
    by simp [agg_rule_columns]⟩
  unfold aggregate_order_book_data_checked
  by_cases h : "ts_event" ∈ cols ∧ "symbol" ∈ cols ∧
      ∀ c ∈ agg_rule_columns levels, c ∈ cols
  · rw [if_pos h]
    exact iff_of_true rfl h
  · rw [if_neg h]
    exact iff_of_false (by simp [isOkE]) h

/-- The required columns of `calculate_log_returns` (returns.py line 23). -/
def returns_required_columns : List String :=
  ["symbol", "ts_event", "bid_px_00", "ask_px_00"]

/-- `calculate_order_flows` with its schema validation (ofi_calculation.py
lines 24-29): the required columns are checked against the frame's column
list before any computation; on failure a ValueError (the spec's
SchemaError) is raised and no derived column is ever computed. -/
def calculate_order_flows_checked (levels : ℕ) (cols : List String)
    (rows : List BookRow) : Except String (List FlowRow) :=
  if ∀ c ∈ ofi_required_columns levels, c ∈ cols
  then .ok (calculate_order_flows levels rows)
  else .error "SchemaError"

/-- `calculate_log_returns` with its schema validation (returns.py lines
23-25). -/
def calculate_log_returns_checked (cols : List String) (rows : List RetRow) :
    Except String (List RetOut) :=
  if ∀ c ∈ returns_required_columns, c ∈ cols
  then .ok (calculate_log_returns rows)
  else .error "SchemaError"

/-- C8: each calculator fails with a schema error iff some required column is
missing, and the outcome depends only on the column list — the check precedes
all computation and (the embedding being pure) the input is never touched on
the error path. -/
theorem C8_schema_validation (levels : ℕ) (cols cols2 : List String)
    (rows : List BookRow) (rrows : List RetRow) :
    (isOkE (calculate_order_flows_checked levels cols rows) = false ↔
      ∃ c ∈ ofi_required_columns levels, c ∉ cols) ∧
    (∀ rows2 : List BookRow,
      isOkE (calculate_order_flows_checked levels cols rows2) =
        isOkE (calculate_order_flows_checked levels cols rows)) ∧
    (isOkE (calculate_log_returns_checked cols2 rrows) = false ↔
      ∃ c ∈ returns_required_columns, c ∉ cols2) ∧
    (∀ rrows2 : List RetRow,
      isOkE (calculate_log_returns_checked cols2 rrows2) =
        isOkE (calculate_log_returns_checked cols2 rrows)) := by
  refine ⟨?_, ?_, ?_, ?_⟩
  · unfold calculate_order_flows_checked
    by_cases h : ∀ c ∈ ofi_required_columns levels, c ∈ cols
    · rw [if_pos h]
      apply iff_of_false
      · simp [isOkE]
      · rintro ⟨c, hc, hnc⟩
        exact hnc (h c hc)
    · rw [if_neg h]
      apply iff_of_true rfl
      push_neg at h
      exact h
  · intro rows2
    unfold calculate_order_flows_checked
    by_cases h : ∀ c ∈ ofi_required_columns levels, c ∈ cols
    · rw [if_pos h, if_pos h]
      rfl
    · rw [if_neg h, if_neg h]
  · unfold calculate_log_returns_checked
    by_cases h : ∀ c ∈ returns_required_columns, c ∈ cols2
    · rw [if_pos h]
      apply iff_of_false
      · simp [isOkE]
      · rintro ⟨c, hc, hnc⟩
        exact hnc (h c hc)
    · rw [if_neg h]
      apply iff_of_true rfl
      push_neg at h
      exact h
  · intro rrows2
    unfold calculate_log_returns_checked
    by_cases h : ∀ c ∈ returns_required_columns, c ∈ cols2
    · rw [if_pos h, if_pos h]
      rfl
    · rw [if_neg h, if_neg h]

/-!
Dimensionality reducer (scripts/pca_integration.py, `integrate_ofi_with_pca`).

A frame is embedded generically here (column names plus rational cell rows)
because the claim is about the frame shape.  sklearn's
`PCA(n_components=1).fit_transform` centers the extracted flow matrix and
projects each row onto the fitted principal axis; the axis (the output of an
external eigendecomposition) enters the model as the parameter `w`, while
centering, projection and all shape behavior are modelled explicitly.
-/

/-- A generic data frame: column names and rational cell rows. -/
structure DF where
  cols : List String
  rows : List (List ℚ)
deriving DecidableEq, Repr

/-- The `ofi_columns` list of pca_integration.py line 20:
`of_{level}_b` for each level, then `of_{level}_a` (no zero padding). -/
def ofiColumnNames (levels : ℕ) : List String :=
  ((List.range levels).map fun l => "of_" ++ toString l ++ "_b") ++
    ((List.range levels).map fun l => "of_" ++ toString l ++ "_a")

/-- Cell of a row under a named column. -/
def colVal (df : DF) (row : List ℚ) (c : String) : ℚ :=
  row.getD (List.indexOf c df.cols) 0

/-- Component-wise sum of two vectors. -/
def vecAdd (a b : List ℚ) : List ℚ := List.zipWith (fun x y => x + y) a b

/-- Column means of a matrix (empty for an empty matrix). -/
def meanVec : List (List ℚ) → List ℚ
  | [] => []
  | x :: xs => (xs.foldl vecAdd x).map fun v => v / ((x :: xs).length : ℚ)

/-- Dot product. -/
def dotProd (a b : List ℚ) : ℚ := (List.zipWith (fun x y => x * y) a b).sum

/-- `PCA(n_components=1).fit_transform`: center the matrix and project every
row onto the principal axis `w` (one scalar per input row). -/
def pcaTransform (w : List ℚ) (x : List (List ℚ)) : List ℚ :=
  let mu := meanVec x
  x.map fun r => dotProd (List.zipWith (fun a b => a - b) r mu) w

/-- Shallow embedding of `integrate_ofi_with_pca` (pca_integration.py lines
17-28) on an input holding the flow columns: extract the `2*levels` flow
columns, project them to one scalar per row, and assign the result as the new
last column `ofi_pca` of the same frame. -/
def integrate_ofi_with_pca (levels : ℕ) (w : List ℚ) (df : DF) : DF :=
  let ofi_data := df.rows.map fun r => (ofiColumnNames levels).map fun c => colVal df r c
  { cols := df.cols ++ ["ofi_pca"],
    rows := List.zipWith (fun r v => r ++ [v]) df.rows (pcaTransform w ofi_data) }

/-- C9: `integrate_ofi_with_pca` returns a frame with exactly as many rows as
its input and exactly one new column, `ofi_pca`, appended after the input's
columns; every input row is preserved unchanged with its projection value
appended. -/
theorem C9_pca_frame_shape (levels : ℕ) (w : List ℚ) (df : DF)
    (hcols : ∀ c ∈ ofiColumnNames levels, c ∈ df.cols)
    (hnew : "ofi_pca" ∉ df.cols) :
    (integrate_ofi_with_pca levels w df).rows.length = df.rows.length ∧
    (integrate_ofi_with_pca levels w df).cols = df.cols ++ ["ofi_pca"] ∧
    (integrate_ofi_with_pca levels w df).cols.length = df.cols.length + 1 ∧
    (∀ (i : ℕ) (r : List ℚ), df.rows[i]? = some r →
      ∃ v, (integrate_ofi_with_pca levels w df).rows[i]? = some (r ++ [v])) := by
  have hscore : (pcaTransform w (df.rows.map fun r =>
      (ofiColumnNames levels).map fun c => colVal df r c)).length = df.rows.length := by
    simp [pcaTransform]
  refine ⟨?_, rfl, by simp [integrate_ofi_with_pca], ?_⟩
  · simp only [integrate_ofi_with_pca, List.length_zipWith, hscore]
    exact Nat.min_self _
  · intro i r hr
    have hi : i < df.rows.length := by
      by_contra hlt
      rw [List.getElem?_eq_none (by omega)] at hr
      exact Option.noConfusion hr
    have hi2 : i < (pcaTransform w (df.rows.map fun r =>
        (ofiColumnNames levels).map fun c => colVal df r c)).length := by
      rw [hscore]
      exact hi
    refine ⟨(pcaTransform w (df.rows.map fun r =>
        (ofiColumnNames levels).map fun c => colVal df r c)).get ⟨i, hi2⟩, ?_⟩
    simp only [integrate_ofi_with_pca, List.getElem?_zipWith, hr,
      List.getElem?_eq_getElem hi2, List.get_eq_getElem]

/-- A two-row flow frame for one level (columns `of_0_b`, `of_0_a`). -/
def wDF : DF := ⟨["of_0_b", "of_0_a"], [[1, 2], [3, 4]]⟩

theorem C9_pca_frame_shape_witness :
    (integrate_ofi_with_pca 1 [1, 0] wDF).rows.length = wDF.rows.length ∧
    (integrate_ofi_with_pca 1 [1, 0] wDF).cols = wDF.cols ++ ["ofi_pca"] ∧
    (integrate_ofi_with_pca 1 [1, 0] wDF).cols.length = wDF.cols.length + 1 ∧
    (∀ (i : ℕ) (r : List ℚ), wDF.rows[i]? = some r →
      ∃ v, (integrate_ofi_with_pca 1 [1, 0] wDF).rows[i]? = some (r ++ [v])) :=
  C9_pca_frame_shape 1 [1, 0] wDF (by decide) (by decide)

/-!
Cross-impact estimator (scripts/cross_impact.py,
`contemporaneous_cross_impact`).

The pivoted frames are indexed by sorted distinct times and sorted distinct
symbols; a cell is the unique matching row (pivot raises on duplicate
(ts_event, symbol) keys, hence the no-duplicates hypothesis below).  Two
external numeric routines enter the model as parameters: `stdF` — the sample
standard deviation of a predictor column (`X.std()`, an irrational square
root) — and `fit` — `LassoCV(cv=5, max_iter=2000, tol=1e-4).fit(X, y).coef_`,
the cross-validated regression whose coefficient vector always has one entry
per feature column.
-/

/-- One row of the merged OFI/returns table. -/
structure CIRow where
  ts_event : ℕ
  symbol : ℕ
  ofi_pca : ℚ
  log_return : ℚ
deriving DecidableEq, Repr

/-- The pivoted frames' column labels: sorted distinct symbols. -/
def ciSymbols (rows : List CIRow) : List ℕ :=
  List.insertionSort (fun a b => a ≤ b) ((rows.map fun r => r.symbol).dedup)

/-- The pivoted frames' index labels: sorted distinct event times. -/
def ciTimes (rows : List CIRow) : List ℕ :=
  List.insertionSort (fun a b => a ≤ b) ((rows.map fun r => r.ts_event).dedup)

/-- One cell of a pivoted frame: the (unique, under the pivot precondition)
row carrying the given time and symbol, if any. -/
def pivotCell (rows : List CIRow) (t s : ℕ) : Option CIRow :=
  rows.find? fun r => r.ts_event == t && r.symbol == s

/-- Column mean `X.mean()`. -/
def ciMean (xs : List ℚ) : ℚ := xs.sum / xs.length

/-- Standardization of cross_impact.py lines 38-46: subtract each column's
mean and divide by its standard deviation `stdF`, a zero standard deviation
being replaced by 1e-10 first. -/
def standardizeX (stdF : List ℚ → ℚ) (w : ℕ) (x : List (List ℚ)) :
    List (List ℚ) :=
  x.map fun r => (List.range w).map fun j =>
    let col := x.map fun r2 => r2.getD j 0
    let sd := stdF col
    let sd2 := if sd = 0 then 1 / 10 ^ 10 else sd
    (r.getD j 0 - ciMean col) / sd2

/-- Shallow embedding of `contemporaneous_cross_impact` (cross_impact.py
lines 21-56): pivot OFI and returns by (time, symbol); then, for each target
symbol in the returns frame's column order, drop the target's missing
returns, take every symbol's OFI at the remaining times with missing values
filled by 0, standardize, fit one regression, and store the coefficient
vector as the target's row. -/
def contemporaneous_cross_impact
    (fit : List (List ℚ) → List ℚ → List ℚ) (stdF : List ℚ → ℚ)
    (rows : List CIRow) : List (ℕ × List ℚ) :=
  let syms := ciSymbols rows
  let tss := ciTimes rows
  syms.map fun tgt =>
    let yts := tss.filter fun t => (pivotCell rows t tgt).isSome
    let y := yts.filterMap fun t => (pivotCell rows t tgt).map fun r => r.log_return
    let x := yts.map fun t => syms.map fun s2 =>
      ((pivotCell rows t s2).map fun r => r.ofi_pca).getD 0
    (tgt, fit (standardizeX stdF syms.length x) y)

lemma standardizeX_row_length (stdF : List ℚ → ℚ) (w : ℕ) (x : List (List ℚ)) :
    ∀ row ∈ standardizeX stdF w x, row.length = w := by
  intro row hrow
  rcases List.mem_map.1 hrow with ⟨r, _, hre⟩
  rw [← hre]
  simp

/-- C3: the coefficient table has exactly one row per distinct instrument of
the pivoted returns frame (in its column order, each exactly once) and every
stored coefficient vector has exactly one entry per distinct instrument of
the pivoted OFI frame (both frames are pivoted from the same table, so both
are indexed by `ciSymbols`); one regression is fitted per target row. -/
theorem C3_cross_impact_shape
    (fit : List (List ℚ) → List ℚ → List ℚ) (stdF : List ℚ → ℚ)
    (rows : List CIRow)
    (hnodup : ∀ r1 ∈ rows, ∀ r2 ∈ rows,
      r1.ts_event = r2.ts_event → r1.symbol = r2.symbol → r1 = r2)
    (hfit : ∀ (x : List (List ℚ)) (y : List ℚ),
      (∀ row ∈ x, row.length = (ciSymbols rows).length) →
      (fit x y).length = (ciSymbols rows).length) :
    ((contemporaneous_cross_impact fit stdF rows).map Prod.fst = ciSymbols rows) ∧
    (contemporaneous_cross_impact fit stdF rows).length = (ciSymbols rows).length ∧
    (ciSymbols rows).Nodup ∧
    (∀ p ∈ contemporaneous_cross_impact fit stdF rows,
      p.2.length = (ciSymbols rows).length) := by
  refine ⟨?_, ?_, ?_, ?_⟩
  · unfold contemporaneous_cross_impact
    rw [List.map_map]
    exact List.map_id _
  · unfold contemporaneous_cross_impact
    exact List.length_map _ _
  · unfold ciSymbols
    exact (List.perm_insertionSort _ _).symm.nodup (List.nodup_dedup _)
  · intro p hp
    unfold contemporaneous_cross_impact at hp
    rcases List.mem_map.1 hp with ⟨tgt, _, hpe⟩
    rw [← hpe]
    exact hfit _ _ (standardizeX_row_length stdF _ _)

/-- One merged OFI/returns row for the cross-impact instance. -/
def ciRowW : CIRow := ⟨0, 0, 1, 1⟩

/-- A stand-in fitted-coefficient function for the instance: one coefficient
per (single) predictor. -/
def ciFitW : List (List ℚ) → List ℚ → List ℚ := fun x y => [0]

/-- A stand-in standard-deviation function for the instance. -/
def ciStdW : List ℚ → ℚ := fun col => 1

theorem C3_cross_impact_shape_witness :
    ((contemporaneous_cross_impact ciFitW ciStdW [ciRowW]).map
      Prod.fst = ciSymbols [ciRowW]) ∧
    (contemporaneous_cross_impact ciFitW ciStdW [ciRowW]).length =
      (ciSymbols [ciRowW]).length ∧
    (ciSymbols [ciRowW]).Nodup ∧
    (∀ p ∈ contemporaneous_cross_impact ciFitW ciStdW [ciRowW],
      p.2.length = (ciSymbols [ciRowW]).length) :=
  C3_cross_impact_shape ciFitW ciStdW [ciRowW]
    (by decide) (fun x y h => rfl)
